import Mathlib

/-!
Shallow embedding of the core of the psteitz/ifs fractal server
(src/fractals/main.go, src/engine/newton.go and the engine sources under
src/unnamed), together with theorems settling the frozen claims.

Modelling conventions:

* Go complex128 values are modelled by `QC`, pairs of exact rationals.  The Go
  code computes with IEEE-754 float64; this development idealises that
  arithmetic as exact field arithmetic on the rationals.  Division by a zero
  denominator yields 0 here (the rational convention), while Go would produce
  non-finite components; concrete inputs used below avoid that divergence
  except where explicitly noted at the definition concerned.
* The comparison cmplx.Abs z > big is embedded without square roots as
  (big < 0 or big * big < normSq z), which is equivalent for every real big
  since the modulus is the nonnegative square root of normSq; likewise the
  Newton test cmplx.Abs w < tol, for the fixed positive tolerance 1e-16, is
  embedded as normSq w < tol ^ 2.
* The Go conversion uint16(x) of a nonnegative integer keeps the low 16 bits;
  color.RGBA64 channels are modelled as naturals produced by that modular
  arithmetic, and Go uint16 subtraction wraps modulo 2 ^ 16.
* The concurrent frame pipeline is modelled by quantifying over every possible
  arrival order of worker results (any permutation of the per-frame results);
  the collector loop and the in-order readout loop are translated directly.
  Channel semantics deliver each job to exactly one worker and each result
  exactly once, which is what the permutation hypothesis expresses.
-/

/-- Exact-rational stand-in for a Go complex128 value. -/
structure QC where
  re : ℚ
  im : ℚ
deriving DecidableEq

namespace QC

protected def add (z w : QC) : QC := ⟨z.re + w.re, z.im + w.im⟩

protected def sub (z w : QC) : QC := ⟨z.re - w.re, z.im - w.im⟩

protected def neg (z : QC) : QC := ⟨-z.re, -z.im⟩

protected def mul (z w : QC) : QC :=
  ⟨z.re * w.re - z.im * w.im, z.re * w.im + z.im * w.re⟩

/-- Squared modulus of a complex value. -/
def normSq (z : QC) : ℚ := z.re * z.re + z.im * z.im

/-- Multiplicative inverse (conjugate over squared modulus).  In exact
arithmetic this agrees with the value computed by the Go complex-division
algorithm whenever the denominator is nonzero; at zero the rational
convention yields 0 where Go float64 arithmetic yields non-finite parts. -/
protected def inv (z : QC) : QC := ⟨z.re / z.normSq, -z.im / z.normSq⟩

instance : Add QC := ⟨QC.add⟩

instance : Sub QC := ⟨QC.sub⟩

instance : Neg QC := ⟨QC.neg⟩

instance : Mul QC := ⟨QC.mul⟩

instance : Div QC := ⟨fun z w => z * w.inv⟩

/-- The complex value with the given real part and zero imaginary part. -/
def ofRat (q : ℚ) : QC := ⟨q, 0⟩

/-- Embedding of cmplx.Abs z > b without square roots: for b < 0 the modulus
(always nonnegative) exceeds b; otherwise comparing squares is equivalent. -/
def absGt (z : QC) (b : ℚ) : Bool := decide (b < 0) || decide (b * b < z.normSq)

end QC

/-- A color.RGBA64 pixel: four Go uint16 channels modelled as naturals. -/
structure RGBA64 where
  r : Nat
  g : Nat
  b : Nat
  a : Nat
deriving DecidableEq

/-- Go conversion uint16(x) of a nonnegative integer: the low 16 bits. -/
def goUint16 (x : Nat) : Nat := x % 65536

/-- Go uint16 subtraction x - y for operands below 2 ^ 16: wraps modulo 2 ^ 16. -/
def goUint16sub (x y : Nat) : Nat := (x + 65536 - y) % 65536

/-! ## Julia kernel (juliaIFS in src/fractals/main.go and src/unnamed/part_002) -/

/-- The loop of juliaIFS.  The fuel argument counts remaining loop iterations
(initially maxIter) and i is the Go loop counter; each pass updates
z to z * z + c, tests the escape threshold and returns the current loop index
on escape.  The result distinguishes the two Go exit paths: some i for the
early return inside the loop, none for falling off the end of the loop. -/
def juliaEscape (c : QC) (big : ℚ) : QC → Nat → Nat → Option Nat
  | _, 0, _ => none
  | z, fuel + 1, i =>
    let z2 := z * z + c
    if z2.absGt big then some i else juliaEscape c big z2 fuel (i + 1)

/-- Translation of Go juliaIFS: iterate z to z * z + c up to maxIter times,
returning the loop index at the first escape and 0 when the budget is
exhausted without escape (the two cases share the return value 0 when the
escape happens at loop index 0). -/
def juliaIFS (z c : QC) (maxIter : Nat) (big : ℚ) : Nat :=
  (juliaEscape c big z maxIter 0).getD 0

/-- Orbit of the quadratic map: juliaOrbit z c k is z after k updates. -/
def juliaOrbit (z c : QC) : Nat → QC
  | 0 => z
  | k + 1 =>
    let w := juliaOrbit z c k
    w * w + c

/-! ## Julia color mapping -/

/-- Pixel color computed in the body of juliaSingle for a kernel result:
black with alpha 60000 when the result is 0, otherwise the two-channel ramp
with Go uint16 conversions. -/
def juliaSingleColor (result : Nat) : RGBA64 :=
  if 0 < result then
    ⟨0, goUint16 (2000 * result), goUint16sub 60000 (goUint16 (2000 * result)), 60000⟩
  else ⟨0, 0, 0, 60000⟩

/-- Pixel color computed in the body of frameWorker for a kernel result:
all four channels zero when the result is 0 (note the alpha channel is 0
here, unlike juliaSingle), otherwise the same two-channel ramp. -/
def frameWorkerColor (j : Nat) : RGBA64 :=
  if 0 < j then
    ⟨0, goUint16 (2000 * j), goUint16sub 60000 (goUint16 (2000 * j)), 60000⟩
  else ⟨0, 0, 0, 0⟩

/-! ## Newton kernel (newtonIFS in src/engine/newton.go and src/fractals/main.go) -/

/-- Square of the Newton tolerance 1e-16. -/
def newtonTolSq : ℚ := 1 / 10 ^ 32

/-- Embedding of cmplx.Abs (z - w) < 1e-16 by comparing squared moduli. -/
def nearRoot (z w : QC) : Bool := decide ((z - w).normSq < newtonTolSq)

/-- One Newton update: z becomes z - (z - 1 / (z * z * z)) / 4. -/
def newtonStep (z : QC) : QC :=
  z - (z - QC.ofRat 1 / (z * z * z)) / QC.ofRat 4

/-- Orbit of the Newton update map. -/
def newtonOrbit (z : QC) : Nat → QC
  | 0 => z
  | k + 1 => newtonStep (newtonOrbit z k)

def rootOne : QC := ⟨1, 0⟩

def rootMinusOne : QC := ⟨-1, 0⟩

def rootPosI : QC := ⟨0, 1⟩

def rootNegI : QC := ⟨0, -1⟩

/-- The four roots in the fixed order checked by the source. -/
def newtonRootAt (k : Nat) : QC :=
  [rootOne, rootMinusOne, rootPosI, rootNegI].getD k ⟨0, 0⟩

/-- The brightness channel 60000 - uint16(contrast * i) in Go uint16
arithmetic (wrapping, not clamping). -/
def newtonBright (contrast i : Nat) : Nat :=
  goUint16sub 60000 (goUint16 (contrast * i))

/-- Root-index-to-color assignment used by the four return statements of
newtonIFS (in source order: root 1, root -1, root i, root -i). -/
def newtonColor (rIdx i contrast : Nat) : RGBA64 :=
  match rIdx with
  | 0 => ⟨newtonBright contrast i, 0, 0, 60000⟩
  | 1 => ⟨0, newtonBright contrast i, 0, 60000⟩
  | 2 => ⟨0, 0, newtonBright contrast i, 60000⟩
  | _ => ⟨newtonBright contrast i, 0, newtonBright contrast i, 60000⟩

/-- Literal translation of the newtonIFS loop; fuel counts remaining
iterations and i is the Go loop counter. -/
def newtonGo (contrast : Nat) : QC → Nat → Nat → RGBA64
  | _, 0, _ => ⟨0, 0, 0, 0⟩
  | z, fuel + 1, i =>
    let z2 := newtonStep z
    if nearRoot z2 rootOne then ⟨newtonBright contrast i, 0, 0, 60000⟩
    else if nearRoot z2 rootMinusOne then ⟨0, newtonBright contrast i, 0, 60000⟩
    else if nearRoot z2 rootPosI then ⟨0, 0, newtonBright contrast i, 60000⟩
    else if nearRoot z2 rootNegI then
      ⟨newtonBright contrast i, 0, newtonBright contrast i, 60000⟩
    else newtonGo contrast z2 fuel (i + 1)

/-- Go newtonIFS with its fixed 400-iteration budget. -/
def newtonIFS (z : QC) (contrast : Nat) : RGBA64 := newtonGo contrast z 400 0

/-- First root within tolerance of z, checked in the fixed source order
1, -1, i, -i; the result is the index of that root in `newtonRootAt`. -/
def firstRootIdx (z : QC) : Option Nat :=
  if nearRoot z rootOne then some 0
  else if nearRoot z rootMinusOne then some 1
  else if nearRoot z rootPosI then some 2
  else if nearRoot z rootNegI then some 3
  else none

/-- Classification underlying newtonIFS: the root index and 0-based loop index
of the first match, or none when the budget is exhausted.  The glue theorem
below proves newtonGo equal to newtonColor composed with this function. -/
def newtonClassify : QC → Nat → Nat → Option (Nat × Nat)
  | _, 0, _ => none
  | z, fuel + 1, i =>
    let z2 := newtonStep z
    match firstRootIdx z2 with
    | some r => some (r, i)
    | none => newtonClassify z2 fuel (i + 1)

/-! ## Parameter path functions (watFunc, linFunc in the source) -/

def watParamWidth : ℚ := 1 / 5

def watParamStart : ℚ := -29 / 20

def linParamWidth : ℚ := 3 / 50

def linCenterRe : ℚ := 3887 / 10000

def linCenterIm : ℚ := -1079 / 5000

/-- The triangle-wave offset shared verbatim by the bodies of watFunc and
linFunc: halframes is nFrames / 2 (Go integer division), delta the pitch
w / halframes, and alpha rises over the first half of the frames and falls
over the second.  With halframes = 0 the rational convention makes delta 0,
whereas Go float64 would give an infinite delta; the theorems below only use
halframes at least 1. -/
def triangleAlpha (w : ℚ) (halframes i : Nat) : ℚ :=
  let delta : ℚ := w / (halframes : ℚ)
  if i < halframes then (i : ℚ) * delta
  else w - ((i - halframes : Nat) : ℚ) * delta

/-- Angor path: real-only triangle wave from -1.45 over width 0.2. -/
def watFunc (i nFrames : Nat) : QC :=
  ⟨watParamStart + triangleAlpha watParamWidth (nFrames / 2) i, 0⟩

/-- Wabbit path: both coordinates offset together from the fixed center by
the same triangle wave of width 0.06. -/
def linFunc (i nFrames : Nat) : QC :=
  ⟨linCenterRe + triangleAlpha linParamWidth (nFrames / 2) i,
   linCenterIm + triangleAlpha linParamWidth (nFrames / 2) i⟩

/-! ## Frame pipeline (julia in src/fractals/main.go, Julia in part_002) -/

/-- An indexed frame result, mirroring the frame struct of the source.  The
image type is a parameter: the pipeline logic never inspects pixel data. -/
structure Frame (α : Type) where
  index : Nat
  img : α
deriving DecidableEq

/-- The collector loop: for each received result, frames[frame.index] =
frame.img.  The frames slice is modelled as a list of option slots; every
index written is below the slice length in all uses below, where List.set
and the Go slice assignment agree. -/
def collectFrames {α : Type} : List (Option α) → List (Frame α) → List (Option α)
  | slots, [] => slots
  | slots, f :: rest => collectFrames (slots.set f.index (some f.img)) rest

/-- The job-construction loop: one FrameJob per index k below nFrames, whose
rendered image is render k.  In the source, render k is the frameWorker
rasterisation of the parameter paramFuncs[path](k, nFrames); the pipeline
treats it as an opaque pure function of k. -/
def frameJobs {α : Type} (render : Nat → α) (nFrames : Nat) : List (Frame α) :=
  (List.range nFrames).map (fun k => ⟨k, render k⟩)

/-- The pipeline as observed at the collector: each worker result is the pure
rasterisation render k of the job with index k (workers compute
deterministically from their job and nothing else), and the schedule lists
the frame indices in their arrival order at the collector.  Starting from
nFrames empty slots, the collector loop is folded over the results in that
order; the final slot list, read in index order, is the AnimationSequence
handed to the GIF encoder. -/
def juliaPipeline {α : Type} (render : Nat → α) (nFrames : Nat)
    (schedule : List Nat) : List (Option α) :=
  collectFrames (List.replicate nFrames none)
    (schedule.map (fun k => ⟨k, render k⟩))

/-! ## Request handler (julia handler in src/fractals/main.go) -/

/-- The error kinds named by the specification.  The Go handler has no error
return at all; the handler model below uses this type only to make the
absence of any reported error observable. -/
inductive JuliaError where
  | invalidPathName
  | invalidFrameCount
  | invalidWorkerCount
deriving DecidableEq

/-- The keys of the paramFuncs registry, in source order. -/
def paramPathNames : List String := ["Angor", "Exp", "Wabbit"]

/-- Path-name resolution of the julia handler: an unrecognized name is
silently replaced by the default Angor before any job is created (the Go
code tests paramFuncs[paramPath] == nil and overwrites paramPath). -/
def resolveParamPath (s : String) : String :=
  if paramPathNames.contains s then s else "Angor"

/-- The julia handler: resolve the path name, build the jobs, run the
pipeline, and answer with the collected sequence.  render path k nFrames
stands for the frameWorker rasterisation of paramFuncs[path](k, nFrames).
nWorkers only sets the degree of concurrency in the source and does not
appear in the collected value; the handler performs no validation and
never produces an error. -/
def juliaHandler {α : Type} (render : String → Nat → Nat → α) (paramPath : String)
    (nFrames nWorkers : Nat) (schedule : List Nat) :
    Except JuliaError (List (Option α)) :=
  let path := resolveParamPath paramPath
  Except.ok (juliaPipeline (fun k => render path k nFrames) nFrames schedule)

/-! ## Helper lemmas: the julia escape loop -/

lemma juliaOrbit_succ_shift (z c : QC) (k : Nat) :
    juliaOrbit z c (k + 1) = juliaOrbit (z * z + c) c k := by
  induction k with
  | zero => rfl
  | succ k ih =>
    show juliaOrbit z c (k + 1) * juliaOrbit z c (k + 1) + c = _
    rw [ih]
    rfl

lemma juliaEscape_shift (c : QC) (big : ℚ) :
    ∀ (fuel : Nat) (z : QC) (i : Nat),
      juliaEscape c big z fuel i = (juliaEscape c big z fuel 0).map (fun k => k + i) := by
  intro fuel
  induction fuel with
  | zero => intro z i; rfl
  | succ fuel ih =>
    intro z i
    simp only [juliaEscape]
    by_cases h : (z * z + c).absGt big = true
    · simp [h]
    · simp only [Bool.not_eq_true] at h
      simp only [h, if_false, Bool.false_eq_true]
      rw [ih _ (i + 1), ih _ 1, Option.map_map]
      congr 1
      funext k
      simp only [Function.comp]
      omega

lemma juliaEscape_some_iff (c : QC) (big : ℚ) :
    ∀ (fuel : Nat) (z : QC) (k : Nat),
      juliaEscape c big z fuel 0 = some k ↔
        k < fuel ∧ (juliaOrbit z c (k + 1)).absGt big = true ∧
          ∀ m < k, (juliaOrbit z c (m + 1)).absGt big = false := by
  intro fuel
  induction fuel with
  | zero => intro z k; simp [juliaEscape]
  | succ fuel ih =>
    intro z k
    have horb1 : juliaOrbit z c 1 = z * z + c := rfl
    simp only [juliaEscape]
    by_cases h : (z * z + c).absGt big = true
    · simp only [h, if_true]
      constructor
      · intro hk
        have hk0 : k = 0 := by
          cases hk
          rfl
        subst hk0
        refine ⟨Nat.succ_pos _, by rw [horb1]; exact h, ?_⟩
        intro m hm
        omega
      · rintro ⟨hk, hesc, hmin⟩
        cases k with
        | zero => rfl
        | succ k =>
          have h0 := hmin 0 (Nat.succ_pos _)
          rw [horb1] at h0
          rw [h0] at h
          cases h
    · simp only [Bool.not_eq_true] at h
      simp only [h, if_false, Bool.false_eq_true]
      rw [juliaEscape_shift]
      cases k with
      | zero =>
        simp only [Option.map_eq_some']
        constructor
        · rintro ⟨a, -, ha⟩
          omega
        · rintro ⟨-, hesc, -⟩
          rw [horb1] at hesc
          rw [hesc] at h
          cases h
      | succ k =>
        constructor
        · intro hk
          rcases Option.map_eq_some'.mp hk with ⟨a, ha, hak⟩
          have hak' : a = k := by omega
          rw [hak'] at ha
          rcases (ih (z * z + c) k).mp ha with ⟨hkf, hesc, hmin⟩
          refine ⟨by omega, ?_, ?_⟩
          · rw [juliaOrbit_succ_shift]
            exact hesc
          · intro m hm
            cases m with
            | zero => rw [horb1]; exact h
            | succ m =>
              rw [juliaOrbit_succ_shift]
              exact hmin m (by omega)
        · rintro ⟨hkf, hesc, hmin⟩
          have ha : juliaEscape c big (z * z + c) fuel 0 = some k := by
            refine (ih (z * z + c) k).mpr ⟨by omega, ?_, ?_⟩
            · rw [← juliaOrbit_succ_shift]
              exact hesc
            · intro m hm
              rw [← juliaOrbit_succ_shift]
              exact hmin (m + 1) (by omega)
          rw [ha]
          rfl

lemma juliaEscape_none_iff (c : QC) (big : ℚ) :
    ∀ (fuel : Nat) (z : QC),
      juliaEscape c big z fuel 0 = none ↔
        ∀ m < fuel, (juliaOrbit z c (m + 1)).absGt big = false := by
  intro fuel
  induction fuel with
  | zero => intro z; simp [juliaEscape]
  | succ fuel ih =>
    intro z
    have horb1 : juliaOrbit z c 1 = z * z + c := rfl
    simp only [juliaEscape]
    by_cases h : (z * z + c).absGt big = true
    · simp only [h, if_true]
      constructor
      · intro hk
        cases hk
      · intro hall
        have h0 := hall 0 (Nat.succ_pos _)
        rw [horb1] at h0
        rw [h0] at h
        cases h
    · simp only [Bool.not_eq_true] at h
      simp only [h, if_false, Bool.false_eq_true]
      rw [juliaEscape_shift]
      rw [Option.map_eq_none']
      rw [ih (z * z + c)]
      constructor
      · intro hall m hm
        cases m with
        | zero => rw [horb1]; exact h
        | succ m =>
          rw [juliaOrbit_succ_shift]
          exact hall m (by omega)
      · intro hall m hm
        rw [← juliaOrbit_succ_shift]
        exact hall (m + 1) (by omega)

/-! ## Helper lemmas: the newton loop -/

lemma newtonOrbit_succ_shift (z : QC) (k : Nat) :
    newtonOrbit z (k + 1) = newtonOrbit (newtonStep z) k := by
  induction k with
  | zero => rfl
  | succ k ih =>
    show newtonStep (newtonOrbit z (k + 1)) = _
    rw [ih]
    rfl

lemma newtonGo_eq_classify (contrast : Nat) :
    ∀ (fuel : Nat) (z : QC) (i : Nat),
      newtonGo contrast z fuel i =
        match newtonClassify z fuel i with
        | some (r, j) => newtonColor r j contrast
        | none => ⟨0, 0, 0, 0⟩ := by
  intro fuel
  induction fuel with
  | zero => intro z i; rfl
  | succ fuel ih =>
    intro z i
    by_cases h1 : nearRoot (newtonStep z) rootOne
    · simp [newtonGo, newtonClassify, firstRootIdx, h1, newtonColor]
    · by_cases h2 : nearRoot (newtonStep z) rootMinusOne
      · simp [newtonGo, newtonClassify, firstRootIdx, h1, h2, newtonColor]
      · by_cases h3 : nearRoot (newtonStep z) rootPosI
        · simp [newtonGo, newtonClassify, firstRootIdx, h1, h2, h3, newtonColor]
        · by_cases h4 : nearRoot (newtonStep z) rootNegI
          · simp [newtonGo, newtonClassify, firstRootIdx, h1, h2, h3, h4, newtonColor]
          · simp only [newtonGo, newtonClassify, firstRootIdx, h1, h2, h3, h4,
              Bool.false_eq_true, if_false]
            exact ih (newtonStep z) (i + 1)

lemma newtonClassify_shift :
    ∀ (fuel : Nat) (z : QC) (i : Nat),
      newtonClassify z fuel i =
        (newtonClassify z fuel 0).map (fun p => (p.1, p.2 + i)) := by
  intro fuel
  induction fuel with
  | zero => intro z i; rfl
  | succ fuel ih =>
    intro z i
    simp only [newtonClassify]
    cases h : firstRootIdx (newtonStep z) with
    | some r => simp [h]
    | none =>
      simp only [h]
      rw [ih _ (i + 1), ih _ 1, Option.map_map]
      congr 1
      funext p
      simp only [Function.comp]
      congr 1
      omega

lemma newtonClassify_some_iff :
    ∀ (fuel : Nat) (z : QC) (r k : Nat),
      newtonClassify z fuel 0 = some (r, k) ↔
        k < fuel ∧ firstRootIdx (newtonOrbit z (k + 1)) = some r ∧
          ∀ m < k, firstRootIdx (newtonOrbit z (m + 1)) = none := by
  intro fuel
  induction fuel with
  | zero => intro z r k; simp [newtonClassify]
  | succ fuel ih =>
    intro z r k
    have horb1 : newtonOrbit z 1 = newtonStep z := rfl
    simp only [newtonClassify]
    cases h : firstRootIdx (newtonStep z) with
    | some r0 =>
      simp only [h]
      constructor
      · intro hk
        have hk' : r0 = r ∧ 0 = k := by
          cases hk
          exact ⟨rfl, rfl⟩
        rcases hk' with ⟨hr, hk0⟩
        subst hr
        rw [← hk0]
        refine ⟨Nat.succ_pos _, by rw [horb1]; exact h, ?_⟩
        intro m hm
        omega
      · rintro ⟨hkf, hroot, hmin⟩
        cases k with
        | zero =>
          rw [horb1] at hroot
          rw [h] at hroot
          cases hroot
          rfl
        | succ k =>
          have h0 := hmin 0 (Nat.succ_pos _)
          rw [horb1] at h0
          rw [h0] at h
          cases h
    | none =>
      simp only [h]
      rw [newtonClassify_shift]
      cases k with
      | zero =>
        simp only [Option.map_eq_some']
        constructor
        · rintro ⟨⟨a, b⟩, -, hab⟩
          have : b + 1 = 0 := congrArg Prod.snd hab
          omega
        · rintro ⟨-, hroot, -⟩
          rw [horb1] at hroot
          rw [h] at hroot
          cases hroot
      | succ k =>
        constructor
        · intro hk
          rcases Option.map_eq_some'.mp hk with ⟨⟨a, b⟩, hab, habk⟩
          have ha : a = r := congrArg Prod.fst habk
          have hb : b + 1 = k + 1 := congrArg Prod.snd habk
          have hb' : b = k := by omega
          rw [ha, hb'] at hab
          rcases (ih (newtonStep z) r k).mp hab with ⟨hkf, hroot, hmin⟩
          refine ⟨by omega, ?_, ?_⟩
          · rw [newtonOrbit_succ_shift]
            exact hroot
          · intro m hm
            cases m with
            | zero => rw [horb1]; exact h
            | succ m =>
              rw [newtonOrbit_succ_shift]
              exact hmin m (by omega)
        · rintro ⟨hkf, hroot, hmin⟩
          have hab : newtonClassify (newtonStep z) fuel 0 = some (r, k) := by
            refine (ih (newtonStep z) r k).mpr ⟨by omega, ?_, ?_⟩
            · rw [← newtonOrbit_succ_shift]
              exact hroot
            · intro m hm
              rw [← newtonOrbit_succ_shift]
              exact hmin (m + 1) (by omega)
          rw [hab]
          rfl

lemma newtonClassify_none_iff :
    ∀ (fuel : Nat) (z : QC),
      newtonClassify z fuel 0 = none ↔
        ∀ m < fuel, firstRootIdx (newtonOrbit z (m + 1)) = none := by
  intro fuel
  induction fuel with
  | zero => intro z; simp [newtonClassify]
  | succ fuel ih =>
    intro z
    have horb1 : newtonOrbit z 1 = newtonStep z := rfl
    simp only [newtonClassify]
    cases h : firstRootIdx (newtonStep z) with
    | some r0 =>
      simp only [h]
      constructor
      · intro hk
        cases hk
      · intro hall
        have h0 := hall 0 (Nat.succ_pos _)
        rw [horb1] at h0
        rw [h0] at h
        cases h
    | none =>
      simp only [h]
      rw [newtonClassify_shift, Option.map_eq_none', ih (newtonStep z)]
      constructor
      · intro hall m hm
        cases m with
        | zero => rw [horb1]; exact h
        | succ m =>
          rw [newtonOrbit_succ_shift]
          exact hall m (by omega)
      · intro hall m hm
        rw [← newtonOrbit_succ_shift]
        exact hall (m + 1) (by omega)

lemma firstRootIdx_first (w : QC) (k : Nat) (h : firstRootIdx w = some k) :
    nearRoot w (newtonRootAt k) = true ∧
      ∀ j < k, nearRoot w (newtonRootAt j) = false := by
  unfold firstRootIdx at h
  split_ifs at h with h1 h2 h3 h4
  · cases h
    refine ⟨h1, ?_⟩
    intro j hj
    omega
  · cases h
    refine ⟨h2, ?_⟩
    intro j hj
    interval_cases j
    simpa [newtonRootAt] using h1
  · cases h
    refine ⟨h3, ?_⟩
    intro j hj
    interval_cases j
    · simpa [newtonRootAt] using h1
    · simpa [newtonRootAt] using h2
  · cases h
    refine ⟨h4, ?_⟩
    intro j hj
    interval_cases j
    · simpa [newtonRootAt] using h1
    · simpa [newtonRootAt] using h2
    · simpa [newtonRootAt] using h3

/-! ## Helper lemmas: the frame pipeline collector -/

lemma collectFrames_length {α : Type} :
    ∀ (results : List (Frame α)) (slots : List (Option α)),
      (collectFrames slots results).length = slots.length := by
  intro results
  induction results with
  | nil => intro slots; rfl
  | cons f rest ih =>
    intro slots
    rw [collectFrames, ih, List.length_set]

lemma collectFrames_getElem_of_not_written {α : Type} :
    ∀ (results : List (Frame α)) (slots : List (Option α)) (i : Nat),
      (∀ f ∈ results, f.index ≠ i) →
      (collectFrames slots results)[i]? = slots[i]? := by
  intro results
  induction results with
  | nil => intro slots i _; rfl
  | cons f rest ih =>
    intro slots i h
    rw [collectFrames, ih _ i (fun g hg => h g (List.mem_cons_of_mem f hg))]
    exact List.getElem?_set_ne (h f (List.mem_cons_self f rest))

lemma collectFrames_getElem_of_written {α : Type} (render : Nat → α) :
    ∀ (results : List (Frame α)) (slots : List (Option α)) (i : Nat),
      (∀ f ∈ results, f.img = render f.index) →
      (∃ f ∈ results, f.index = i) →
      i < slots.length →
      (collectFrames slots results)[i]? = some (some (render i)) := by
  intro results
  induction results with
  | nil =>
    intro slots i _ hex _
    rcases hex with ⟨f, hf, -⟩
    cases hf
  | cons f rest ih =>
    intro slots i himg hex hlen
    rw [collectFrames]
    by_cases hrest : ∃ g ∈ rest, g.index = i
    · exact ih _ i (fun g hg => himg g (List.mem_cons_of_mem f hg)) hrest
        (by rw [List.length_set]; exact hlen)
    · have hfi : f.index = i := by
        rcases hex with ⟨g, hg, hgi⟩
        rcases List.mem_cons.mp hg with hgf | hgr
        · rw [← hgf]; exact hgi
        · exact absurd ⟨g, hgr, hgi⟩ hrest
      push_neg at hrest
      rw [collectFrames_getElem_of_not_written rest _ i hrest, hfi,
        himg f (List.mem_cons_self f rest), hfi]
      exact List.getElem?_set_self hlen

/-! ## Evaluation lemmas for concrete inputs

Rational arithmetic does not reduce by kernel computation (gcd
normalisation is defined by well-founded recursion), so concrete runs of
the kernels are evaluated through the componentwise rewrite lemmas below
together with norm_num. -/

lemma QC.mk_add (a b c d : ℚ) : (⟨a, b⟩ : QC) + ⟨c, d⟩ = ⟨a + c, b + d⟩ := rfl

lemma QC.mk_sub (a b c d : ℚ) : (⟨a, b⟩ : QC) - ⟨c, d⟩ = ⟨a - c, b - d⟩ := rfl

lemma QC.mk_mul (a b c d : ℚ) :
    (⟨a, b⟩ : QC) * ⟨c, d⟩ = ⟨a * c - b * d, a * d + b * c⟩ := rfl

lemma QC.mk_inv (a b : ℚ) :
    (⟨a, b⟩ : QC).inv = ⟨a / (a * a + b * b), -b / (a * a + b * b)⟩ := rfl

lemma QC.div_def (z w : QC) : z / w = z * w.inv := rfl

lemma QC.absGt_mk (a b q : ℚ) :
    QC.absGt ⟨a, b⟩ q = (decide (q < 0) || decide (q * q < a * a + b * b)) := rfl

lemma nearRoot_mk (a b c d : ℚ) :
    nearRoot ⟨a, b⟩ ⟨c, d⟩ =
      decide ((a - c) * (a - c) + (b - d) * (b - d) < newtonTolSq) := rfl

lemma juliaEscape_succ_fuel (c : QC) (big : ℚ) (z : QC) (fuel i : Nat) :
    juliaEscape c big z (fuel + 1) i =
      if (z * z + c).absGt big then some i
      else juliaEscape c big (z * z + c) fuel (i + 1) := rfl

lemma newtonClassify_succ_fuel (z : QC) (fuel i : Nat) :
    newtonClassify z (fuel + 1) i =
      match firstRootIdx (newtonStep z) with
      | some r => some (r, i)
      | none => newtonClassify (newtonStep z) fuel (i + 1) := rfl

/-- A point that is a fixed point of the quadratic update and within the
threshold keeps the loop running for its whole budget, which then returns
none; this evaluates the kernel at such points without unfolding hundreds
of iterations. -/
lemma juliaEscape_of_fixed (c : QC) (big : ℚ) (z : QC) (hfix : z * z + c = z)
    (hin : z.absGt big = false) :
    ∀ (fuel i : Nat), juliaEscape c big z fuel i = none := by
  intro fuel
  induction fuel with
  | zero => intro i; rfl
  | succ fuel ih =>
    intro i
    rw [juliaEscape_succ_fuel, hfix, hin]
    simp only [Bool.false_eq_true, if_false]
    exact ih (i + 1)

/-- The Newton analogue: a fixed point of the update that is near no root
exhausts the whole budget. -/
lemma newtonClassify_of_fixed (z : QC) (hfix : newtonStep z = z)
    (hroot : firstRootIdx z = none) :
    ∀ (fuel i : Nat), newtonClassify z fuel i = none := by
  intro fuel
  induction fuel with
  | zero => intro i; rfl
  | succ fuel ih =>
    intro i
    rw [newtonClassify_succ_fuel, hfix, hroot]
    exact ih (i + 1)

lemma zeroQC_julia_fixed : (⟨0, 0⟩ : QC) * ⟨0, 0⟩ + ⟨0, 0⟩ = ⟨0, 0⟩ := by
  simp only [QC.mk_mul, QC.mk_add, QC.mk.injEq]
  norm_num

lemma zeroQC_within_threshold : QC.absGt ⟨0, 0⟩ 10 = false := by
  simp only [QC.absGt_mk]
  norm_num

/-- The orbit of z = 0 under z * z + 0 never escapes: the kernel runs its
whole budget and falls off the loop. -/
lemma juliaEscape_zero_bounded (fuel i : Nat) :
    juliaEscape ⟨0, 0⟩ 10 ⟨0, 0⟩ fuel i = none :=
  juliaEscape_of_fixed ⟨0, 0⟩ 10 ⟨0, 0⟩ zeroQC_julia_fixed zeroQC_within_threshold fuel i

/-- From z = 4, c = 0 the first update gives 16, which exceeds the
threshold 10 at once: the loop returns its counter value 0. -/
lemma juliaEscape_four_escapes : juliaEscape ⟨0, 0⟩ 10 ⟨4, 0⟩ 1 0 = some 0 := by
  have s1 : (⟨4, 0⟩ : QC) * ⟨4, 0⟩ + ⟨0, 0⟩ = ⟨16, 0⟩ := by
    simp only [QC.mk_mul, QC.mk_add, QC.mk.injEq]
    norm_num
  have a1 : QC.absGt ⟨16, 0⟩ 10 = true := by
    simp only [QC.absGt_mk]
    norm_num
  show juliaEscape ⟨0, 0⟩ 10 ⟨4, 0⟩ (0 + 1) 0 = some 0
  rw [juliaEscape_succ_fuel, s1, a1]
  simp

/-- In the exact model z = 0 is a fixed point of the Newton update (the
rational convention gives 1 / 0 = 0, so the update leaves 0 in place); in
Go float64 the same input instead produces non-finite iterates.  On either
side every root-proximity test fails at every iteration, so both exhaust
the budget. -/
lemma newtonStep_zero : newtonStep ⟨0, 0⟩ = ⟨0, 0⟩ := by
  unfold newtonStep QC.ofRat
  simp only [QC.mk_mul, QC.div_def, QC.mk_inv, QC.mk_sub, QC.mk.injEq]
  norm_num

lemma firstRootIdx_zero : firstRootIdx ⟨0, 0⟩ = none := by
  unfold firstRootIdx
  simp only [rootOne, rootMinusOne, rootPosI, rootNegI, nearRoot_mk, newtonTolSq]
  norm_num

lemma newtonClassify_zero_none (fuel i : Nat) :
    newtonClassify ⟨0, 0⟩ fuel i = none :=
  newtonClassify_of_fixed ⟨0, 0⟩ newtonStep_zero firstRootIdx_zero fuel i

/-- z = 1 is an exact fixed point of the Newton update and within tolerance
of the first root, so the kernel converges at iteration 0 to root index 0. -/
lemma newtonStep_one : newtonStep ⟨1, 0⟩ = ⟨1, 0⟩ := by
  unfold newtonStep QC.ofRat
  simp only [QC.mk_mul, QC.div_def, QC.mk_inv, QC.mk_sub, QC.mk.injEq]
  norm_num

lemma firstRootIdx_one : firstRootIdx ⟨1, 0⟩ = some 0 := by
  unfold firstRootIdx
  simp only [rootOne, nearRoot_mk, newtonTolSq]
  norm_num

lemma newtonClassify_one : newtonClassify ⟨1, 0⟩ 400 0 = some (0, 0) := by
  show newtonClassify ⟨1, 0⟩ (399 + 1) 0 = some (0, 0)
  rw [newtonClassify_succ_fuel, newtonStep_one, firstRootIdx_one]

/-! ## Claim theorems -/

/-- C1: for every nFrames at least 1 the pipeline output is the list of the
nFrames rendered frames in ascending frame-index order, for every possible
arrival order of worker results (any permutation of the frame indices): it
has length exactly nFrames, its element at index i is the frame rendered
for job i in isolation, and it coincides with the single-worker output
(whose arrival order is index order).  Order is reconstructed from the
index field by the collector, never from arrival order.  The statement is
generic in the pure per-frame rasterisation render, which the source
instantiates with the frameWorker rendering of paramFuncs[path](k, nFrames)
for each recognized path name; the worker count influences only which
arrival orders can occur, and the result is the same for all of them. -/
theorem juliaPipeline_ordered {α : Type} (render : Nat → α) (nFrames : Nat)
    (schedule : List Nat) (hn : 1 ≤ nFrames)
    (hperm : schedule.Perm (List.range nFrames)) :
    juliaPipeline render nFrames schedule =
        (List.range nFrames).map (fun k => some (render k)) ∧
      (juliaPipeline render nFrames schedule).length = nFrames ∧
      juliaPipeline render nFrames schedule =
        juliaPipeline render nFrames (List.range nFrames) ∧
      ∀ i < nFrames,
        (juliaPipeline render nFrames schedule)[i]? = some (some (render i)) := by
  have hlen : ∀ sch : List Nat, (juliaPipeline render nFrames sch).length = nFrames := by
    intro sch
    show (collectFrames _ _).length = _
    rw [collectFrames_length, List.length_replicate]
  have key : ∀ sch : List Nat, sch.Perm (List.range nFrames) →
      juliaPipeline render nFrames sch =
        (List.range nFrames).map (fun k => some (render k)) := by
    intro sch hp
    apply List.ext_getElem?
    intro i
    by_cases hi : i < nFrames
    · have hw : (collectFrames (List.replicate nFrames (none : Option α))
          (sch.map (fun k => Frame.mk k (render k))))[i]? = some (some (render i)) := by
        apply collectFrames_getElem_of_written render
        · intro f hf
          rcases List.mem_map.mp hf with ⟨k, -, hk⟩
          rw [← hk]
        · refine ⟨⟨i, render i⟩, List.mem_map.mpr ⟨i, ?_, rfl⟩, rfl⟩
          exact hp.mem_iff.mpr (List.mem_range.mpr hi)
        · simpa using hi
      rw [show juliaPipeline render nFrames sch =
        collectFrames (List.replicate nFrames none)
          (sch.map (fun k => Frame.mk k (render k))) from rfl, hw,
        List.getElem?_map, List.getElem?_range hi]
      rfl
    · rw [List.getElem?_eq_none (by rw [hlen]; omega),
        List.getElem?_eq_none (by rw [List.length_map, List.length_range]; omega)]
  refine ⟨key schedule hperm, hlen schedule, ?_, ?_⟩
  · rw [key schedule hperm, key (List.range nFrames) (List.Perm.refl _)]
  · intro i hi
    rw [key schedule hperm, List.getElem?_map, List.getElem?_range hi]
    rfl

/-- Witness for C1: three frames arriving in the order 2, 0, 1 are still
assembled in ascending index order. -/
theorem juliaPipeline_ordered_witness :
    juliaPipeline (fun k => k) 3 [2, 0, 1] = [some 0, some 1, some 2] := by
  have h := juliaPipeline_ordered (fun k => k) 3 [2, 0, 1] (by decide) (by decide)
  exact h.1.trans (by decide)

/-- C9: when the Julia kernel reports an escape (the early return inside
the loop) at loop index i, the iterate produced by loop pass i is the first
iterate whose modulus exceeds the threshold: every earlier pass produced an
iterate within the threshold, the kernel returns at that first exceedance
with no further iteration, and the returned value is i.  The kernel is a
pure function of (z, c, maxIter, big), so re-running it on the same inputs
yields an identical result. -/
theorem juliaIFS_first_escape (z c : QC) (maxIter : Nat) (big : ℚ) (i : Nat)
    (h : juliaEscape c big z maxIter 0 = some i) :
    i < maxIter ∧ (juliaOrbit z c (i + 1)).absGt big = true ∧
      (∀ m < i, (juliaOrbit z c (m + 1)).absGt big = false) ∧
      juliaIFS z c maxIter big = i ∧
      juliaIFS z c maxIter big = juliaIFS z c maxIter big := by
  rcases (juliaEscape_some_iff c big maxIter z i).mp h with ⟨h1, h2, h3⟩
  refine ⟨h1, h2, h3, ?_, rfl⟩
  rw [juliaIFS, h]
  rfl

/-- Witness for C9: from z = 0, c = 3 the first iterate is 3 (no escape) and
the second is 12, which exceeds the threshold 10, so the kernel reports the
escape at loop index 1. -/
theorem juliaIFS_first_escape_witness :
    juliaEscape ⟨3, 0⟩ 10 ⟨0, 0⟩ 400 0 = some 1 ∧
      juliaIFS ⟨0, 0⟩ ⟨3, 0⟩ 400 10 = 1 := by
  have s1 : (⟨0, 0⟩ : QC) * ⟨0, 0⟩ + ⟨3, 0⟩ = ⟨3, 0⟩ := by
    simp only [QC.mk_mul, QC.mk_add, QC.mk.injEq]
    norm_num
  have s2 : (⟨3, 0⟩ : QC) * ⟨3, 0⟩ + ⟨3, 0⟩ = ⟨12, 0⟩ := by
    simp only [QC.mk_mul, QC.mk_add, QC.mk.injEq]
    norm_num
  have a1 : QC.absGt ⟨3, 0⟩ 10 = false := by
    simp only [QC.absGt_mk]
    norm_num
  have a2 : QC.absGt ⟨12, 0⟩ 10 = true := by
    simp only [QC.absGt_mk]
    norm_num
  have he2 : juliaEscape ⟨3, 0⟩ 10 ⟨3, 0⟩ 399 1 = some 1 := by
    show juliaEscape ⟨3, 0⟩ 10 ⟨3, 0⟩ (398 + 1) 1 = some 1
    rw [juliaEscape_succ_fuel, s2, a2]
    simp
  have he : juliaEscape ⟨3, 0⟩ 10 ⟨0, 0⟩ 400 0 = some 1 := by
    show juliaEscape ⟨3, 0⟩ 10 ⟨0, 0⟩ (399 + 1) 0 = some 1
    rw [juliaEscape_succ_fuel, s1, a1]
    simp only [Bool.false_eq_true, if_false]
    exact he2
  exact ⟨he, (juliaIFS_first_escape ⟨0, 0⟩ ⟨3, 0⟩ 400 10 1 he).2.2.2.1⟩

/-- C2 counterexample: with iteration budget 1 (any budget at least 1 is
allowed by the claim) the input z = 4, c = 0 escapes at the first update
(16 exceeds 10) and the kernel returns 0, the very value it returns for the
bounded input z = 0, c = 0: the reported index is 0-based rather than the
claimed 1-based index at least 1, and the Bounded result is not distinct
from this Escaped result. -/
theorem juliaIFS_collision_cex :
    juliaEscape ⟨0, 0⟩ 10 ⟨4, 0⟩ 1 0 = some 0 ∧
      juliaEscape ⟨0, 0⟩ 10 ⟨0, 0⟩ 1 0 = none ∧
      juliaIFS ⟨4, 0⟩ ⟨0, 0⟩ 1 10 = juliaIFS ⟨0, 0⟩ ⟨0, 0⟩ 1 10 := by
  refine ⟨juliaEscape_four_escapes, juliaEscape_zero_bounded 1 0, ?_⟩
  show (juliaEscape ⟨0, 0⟩ 10 ⟨4, 0⟩ 1 0).getD 0 =
    (juliaEscape ⟨0, 0⟩ 10 ⟨0, 0⟩ 1 0).getD 0
  rw [juliaEscape_four_escapes, juliaEscape_zero_bounded 1 0]
  rfl

/-- C2 amended: the kernel returns either 0 (budget exhausted without
escape) or the 0-based loop index of the first threshold exceedance,
returned immediately; results for escapes at index at least 1 are distinct
from the bounded result, but an escape at the very first update is encoded
as 0 and coincides with Bounded. -/
theorem juliaIFS_zero_based_encoding (z c : QC) (maxIter : Nat) (big : ℚ) :
    (juliaEscape c big z maxIter 0 = none → juliaIFS z c maxIter big = 0) ∧
      ∀ i, juliaEscape c big z maxIter 0 = some i →
        juliaIFS z c maxIter big = i ∧ i < maxIter ∧
          (juliaOrbit z c (i + 1)).absGt big = true ∧
          ∀ m < i, (juliaOrbit z c (m + 1)).absGt big = false := by
  constructor
  · intro h
    rw [juliaIFS, h]
    rfl
  · intro i h
    rcases (juliaEscape_some_iff c big maxIter z i).mp h with ⟨h1, h2, h3⟩
    exact ⟨by rw [juliaIFS, h]; rfl, h1, h2, h3⟩

/-- Witness for the amended C2 at the two branch-defining inputs. -/
theorem juliaIFS_zero_based_encoding_witness :
    juliaIFS ⟨0, 0⟩ ⟨0, 0⟩ 1 10 = 0 ∧ juliaIFS ⟨4, 0⟩ ⟨0, 0⟩ 1 10 = 0 := by
  refine ⟨(juliaIFS_zero_based_encoding ⟨0, 0⟩ ⟨0, 0⟩ 1 10).1
    (juliaEscape_zero_bounded 1 0), ?_⟩
  exact ((juliaIFS_zero_based_encoding ⟨4, 0⟩ ⟨0, 0⟩ 1 10).2 0
    juliaEscape_four_escapes).1

/-- C5: the Newton kernel repeatedly applies the update
z - (z - 1 / z ^ 3) / 4 and after each update tests the four roots in the
fixed order 1, -1, i, -i against the 1e-16 tolerance; the first matching
root wins (ties broken by check order, not distance), the converged color
carries the 0-based index of the matching update, and exhausting the
400-iteration budget yields the Unconverged all-zero color.  Conjuncts:
the color returned by newtonIFS is the color of the classification; the
classification holds exactly at the minimal matching update; budget
exhaustion is exactly the absence of any match within 400 updates; and the
first-root search honours the fixed order. -/
theorem newtonIFS_spec (z : QC) (contrast : Nat) :
    (newtonIFS z contrast =
        match newtonClassify z 400 0 with
        | some (r, j) => newtonColor r j contrast
        | none => ⟨0, 0, 0, 0⟩) ∧
      (∀ r k, newtonClassify z 400 0 = some (r, k) ↔
        k < 400 ∧ firstRootIdx (newtonOrbit z (k + 1)) = some r ∧
          ∀ m < k, firstRootIdx (newtonOrbit z (m + 1)) = none) ∧
      (newtonClassify z 400 0 = none ↔
        ∀ m < 400, firstRootIdx (newtonOrbit z (m + 1)) = none) ∧
      ∀ w k, firstRootIdx w = some k →
        nearRoot w (newtonRootAt k) = true ∧
          ∀ j < k, nearRoot w (newtonRootAt j) = false := by
  refine ⟨newtonGo_eq_classify contrast 400 z 0, ?_,
    newtonClassify_none_iff 400 z, ?_⟩
  · intro r k
    exact newtonClassify_some_iff 400 z r k
  · intro w k h
    exact firstRootIdx_first w k h

/-- Witness for C5 at z = 1: convergence to the first root at update index
0 and the corresponding full-brightness first-channel pixel. -/
theorem newtonIFS_spec_witness :
    newtonClassify ⟨1, 0⟩ 400 0 = some (0, 0) ∧
      newtonIFS ⟨1, 0⟩ 2000 = ⟨60000, 0, 0, 60000⟩ := by
  refine ⟨newtonClassify_one, ?_⟩
  rw [(newtonIFS_spec ⟨1, 0⟩ 2000).1, newtonClassify_one]
  decide

/-- C3 counterexample: the pixel z = 0 with parameter c = 0 is Bounded (its
orbit is constantly 0), yet the per-frame animation renderer paints it
⟨0, 0, 0, 0⟩ with alpha channel 0, fully transparent rather than the
claimed full opacity; the single-image renderer uses alpha 60000 for the
same result, which is also below the uint16 maximum 65535. -/
theorem frameWorkerColor_bounded_cex :
    juliaIFS ⟨0, 0⟩ ⟨0, 0⟩ 400 10 = 0 ∧
      frameWorkerColor (juliaIFS ⟨0, 0⟩ ⟨0, 0⟩ 400 10) = ⟨0, 0, 0, 0⟩ ∧
      (frameWorkerColor (juliaIFS ⟨0, 0⟩ ⟨0, 0⟩ 400 10)).a = 0 ∧
      (juliaSingleColor (juliaIFS ⟨0, 0⟩ ⟨0, 0⟩ 400 10)).a = 60000 ∧
      (0 : Nat) ≠ 65535 ∧ (60000 : Nat) ≠ 65535 := by
  have h : juliaIFS ⟨0, 0⟩ ⟨0, 0⟩ 400 10 = 0 := by
    show (juliaEscape ⟨0, 0⟩ 10 ⟨0, 0⟩ 400 0).getD 0 = 0
    rw [juliaEscape_zero_bounded 400 0]
    rfl
  rw [h]
  exact ⟨rfl, rfl, rfl, rfl, by decide, by decide⟩

/-- C3 amended: Bounded and Unconverged pixels get zero in all three color
channels in every renderer, but the alpha channel differs by renderer: the
single-image Julia renderer writes alpha 60000 (the base channel level,
not the uint16 maximum), while the animation frame renderer and the Newton
renderer write alpha 0, transparent black. -/
theorem bounded_unconverged_black (z c : QC) (maxIter : Nat) (big : ℚ)
    (contrast : Nat) :
    frameWorkerColor 0 = ⟨0, 0, 0, 0⟩ ∧
      juliaSingleColor 0 = ⟨0, 0, 0, 60000⟩ ∧
      (juliaEscape c big z maxIter 0 = none →
        frameWorkerColor (juliaIFS z c maxIter big) = ⟨0, 0, 0, 0⟩ ∧
          juliaSingleColor (juliaIFS z c maxIter big) = ⟨0, 0, 0, 60000⟩) ∧
      (newtonClassify z 400 0 = none → newtonIFS z contrast = ⟨0, 0, 0, 0⟩) := by
  refine ⟨rfl, rfl, ?_, ?_⟩
  · intro h
    have hz : juliaIFS z c maxIter big = 0 := by
      show (juliaEscape c big z maxIter 0).getD 0 = 0
      rw [h]
      rfl
    rw [hz]
    exact ⟨rfl, rfl⟩
  · intro h
    show newtonGo contrast z 400 0 = ⟨0, 0, 0, 0⟩
    rw [newtonGo_eq_classify contrast 400 z 0, h]

/-- Witness for the amended C3 at the Bounded pixel z = 0, c = 0 and, for
Newton, at z = 0, which exhausts the budget (in the exact model the orbit
stays at 0; in Go float64 the orbit is non-finite; both fail every root
test and return the all-zero color). -/
theorem bounded_unconverged_black_witness :
    frameWorkerColor (juliaIFS ⟨0, 0⟩ ⟨0, 0⟩ 400 10) = ⟨0, 0, 0, 0⟩ ∧
      newtonIFS ⟨0, 0⟩ 2000 = ⟨0, 0, 0, 0⟩ := by
  have h := bounded_unconverged_black ⟨0, 0⟩ ⟨0, 0⟩ 400 10 2000
  exact ⟨(h.2.2.1 (juliaEscape_zero_bounded 400 0)).1,
    h.2.2.2 (newtonClassify_zero_none 400 0)⟩

/-- C7 counterexample: at iteration count 31 (within the 400 budget) the
ideal value 60000 - 2000 * 31 is negative; a clamp to the valid channel
range would write 0, but the uint16 arithmetic wraps modulo 2 ^ 16 and the
mappers write 63536 instead, in the Julia ramp blue channel and the Newton
brightness alike. -/
theorem color_channel_wrap_cex :
    (juliaSingleColor 31).b = 63536 ∧ (frameWorkerColor 31).b = 63536 ∧
      newtonBright 2000 31 = 63536 ∧ (juliaSingleColor 31).b ≠ 0 ∧
      ((60000 : Int) - 2000 * 31 < 0) := by decide

/-- C7 amended: the mappers reduce channel values modulo 2 ^ 16 (the Go
uint16 conversion), they do not clamp: every written channel value is in
the valid uint16 range below 65536 for every iteration count, and in the
wrap-free regime 1 ≤ i ≤ 30 the ramp equals the ideal values 2000 * i and
60000 - 2000 * i (the Newton brightness for the reference contrast 2000
included); for larger i the subtraction wraps instead of clamping. -/
theorem color_channels_mod_range (i contrast : Nat) :
    (juliaSingleColor i).g < 65536 ∧ (juliaSingleColor i).b < 65536 ∧
      (juliaSingleColor i).a < 65536 ∧
      (frameWorkerColor i).g < 65536 ∧ (frameWorkerColor i).b < 65536 ∧
      newtonBright contrast i < 65536 ∧
      (1 ≤ i → i ≤ 30 →
        (juliaSingleColor i).g = 2000 * i ∧
          (juliaSingleColor i).b = 60000 - 2000 * i ∧
          (frameWorkerColor i).g = 2000 * i ∧
          (frameWorkerColor i).b = 60000 - 2000 * i ∧
          newtonBright 2000 i = 60000 - 2000 * i) := by
  unfold juliaSingleColor frameWorkerColor newtonBright goUint16 goUint16sub
  split_ifs with h
  · dsimp only
    refine ⟨by omega, by omega, by omega, by omega, by omega, by omega, ?_⟩
    intro h1 h30
    exact ⟨by omega, by omega, by omega, by omega, by omega⟩
  · dsimp only
    refine ⟨by omega, by omega, by omega, by omega, by omega, by omega, ?_⟩
    intro h1 h30
    exfalso
    omega

/-- Witness for the amended C7 at the wrap-free count 7. -/
theorem color_channels_mod_range_witness :
    (juliaSingleColor 7).g = 14000 ∧ (juliaSingleColor 7).b = 46000 ∧
      newtonBright 2000 7 = 46000 := by
  have h := (color_channels_mod_range 7 2000).2.2.2.2.2.2 (by omega) (by omega)
  exact ⟨by rw [h.1], by rw [h.2.1], by rw [h.2.2.2.2]⟩

/-- Symmetry of the shared triangle wave about the half-frame point, for an
even total 2 * h with h at least 1, in exact rational arithmetic. -/
lemma triangleAlpha_symm (w : ℚ) (h i : Nat) (h1 : 1 ≤ h) (hlo : h ≤ i)
    (hhi : i < 2 * h) :
    triangleAlpha w h i = triangleAlpha w h (2 * h - i) := by
  have hq : ((h : Nat) : ℚ) ≠ 0 := Nat.cast_ne_zero.mpr (by omega)
  unfold triangleAlpha
  rw [if_neg (by omega : ¬ i < h)]
  by_cases hih : h < i
  · rw [if_pos (by omega : 2 * h - i < h)]
    rw [Nat.cast_sub hlo, Nat.cast_sub (by omega : i ≤ 2 * h)]
    push_cast
    field_simp
    ring
  · have e1 : i - h = 0 := by omega
    have e2 : 2 * h - i = h := by omega
    rw [e2, if_neg (lt_irrefl h), e1, Nat.sub_self]

/-- C6 amended: for every even nFrames at least 2 and every i in the second
half of the frame range, the Angor and Wabbit paths satisfy the symmetry
path(i, nFrames) = path(nFrames - i, nFrames) in exact arithmetic; for odd
nFrames the symmetry fails (see the counterexample). -/
theorem path_symmetry_even (nFrames i : Nat) (heven : nFrames % 2 = 0)
    (h2 : 2 ≤ nFrames) (hlo : nFrames / 2 ≤ i) (hhi : i < nFrames) :
    watFunc i nFrames = watFunc (nFrames - i) nFrames ∧
      linFunc i nFrames = linFunc (nFrames - i) nFrames := by
  have key : ∀ w : ℚ,
      triangleAlpha w (nFrames / 2) i =
        triangleAlpha w (nFrames / 2) (nFrames - i) := by
    intro w
    have hs := triangleAlpha_symm w (nFrames / 2) i (by omega) hlo (by omega)
    rw [hs]
    congr 1
    omega
  constructor
  · unfold watFunc
    rw [key]
  · unfold linFunc
    rw [key]

/-- Witness for the amended C6 at nFrames = 4, i = 3. -/
theorem path_symmetry_even_witness :
    watFunc 3 4 = watFunc 1 4 ∧ linFunc 3 4 = linFunc 1 4 := by
  have h := path_symmetry_even 4 3 (by omega) (by omega) (by omega) (by omega)
  simpa using h

/-- C6 counterexample: with the odd frame count nFrames = 5 and the
second-half index i = 3 the claimed symmetry fails for both paths: the Go
integer division nFrames / 2 = 2 makes the descending half start one frame
early, so watFunc 3 5 is -1.35 while watFunc (5 - 3) 5 is -1.25 (the
difference 0.1 is far beyond any float64 rounding, so the refutation also
holds for the float64 source). -/
theorem path_symmetry_odd_cex :
    watFunc 3 5 = ⟨-27/20, 0⟩ ∧ watFunc (5 - 3) 5 = ⟨-5/4, 0⟩ ∧
      watFunc 3 5 ≠ watFunc (5 - 3) 5 ∧ linFunc 3 5 ≠ linFunc (5 - 3) 5 := by
  refine ⟨?_, ?_, ?_, ?_⟩ <;>
    norm_num [watFunc, linFunc, triangleAlpha, watParamStart, watParamWidth,
      linParamWidth, linCenterRe, linCenterIm, QC.mk.injEq]

/-- C4 counterexample: invoking the handler with the unrecognized path name
Bogus produces a complete two-frame animation and no error of any kind:
the name is silently replaced by the default Angor before the jobs are
built, instead of the claimed synchronous InvalidPathName report. -/
theorem julia_handler_bogus_cex :
    paramPathNames.contains ("Bogus") = false ∧
      resolveParamPath ("Bogus") = "Angor" ∧
      juliaHandler (fun _ k _ => k) "Bogus" 2 1 [0, 1] =
        Except.ok [some 0, some 1] :=
  ⟨by decide, by decide, rfl⟩

/-- C4 amended: path validation and defaulting happen inside the julia
request handler itself (the monolithic source has no separate core below
it, and the engine variant performs no validation at all): an unrecognized
name is silently replaced by Angor before any job is created, the handler
then behaves exactly as if invoked with Angor, and no InvalidPathName
error is ever reported. -/
theorem julia_handler_defaults_path {α : Type} (render : String → Nat → Nat → α)
    (s : String) (hs : paramPathNames.contains s = false)
    (nFrames nWorkers : Nat) (schedule : List Nat) :
    resolveParamPath s = "Angor" ∧
      juliaHandler render s nFrames nWorkers schedule =
        juliaHandler render ("Angor") nFrames nWorkers schedule ∧
      ∃ out, juliaHandler render s nFrames nWorkers schedule = Except.ok out := by
  have hres : resolveParamPath s = "Angor" := by
    unfold resolveParamPath
    rw [hs]
    rfl
  have hang : resolveParamPath ("Angor") = "Angor" := by decide
  refine ⟨hres, ?_, ⟨_, rfl⟩⟩
  unfold juliaHandler
  rw [hres, hang]

/-- Witness for the amended C4 at the unrecognized name Qux. -/
theorem julia_handler_defaults_path_witness :
    paramPathNames.contains ("Qux") = false ∧
      resolveParamPath ("Qux") = "Angor" ∧
      juliaHandler (fun _ k _ => k) "Qux" 1 1 [0] =
        juliaHandler (fun _ k _ => k) "Angor" 1 1 [0] := by
  have h := julia_handler_defaults_path (fun _ k _ => k) "Qux" (by decide) 1 1 [0]
  exact ⟨by decide, h.1, h.2.1⟩

/-- C8 counterexample: a request with the non-positive frame count 0 is not
rejected: the handler dispatches no work and answers with the empty
animation as a success, never with an error. -/
theorem julia_zero_frames_cex :
    juliaHandler (fun _ k _ => k) "Angor" 0 4 [] = Except.ok [] ∧
      ∀ e : JuliaError,
        juliaHandler (fun _ k _ => k) "Angor" 0 4 [] ≠ Except.error e := by
  refine ⟨rfl, ?_⟩
  intro e h
  exact Except.noConfusion h

/-- C8 amended: the handler performs no validation of the frame or worker
counts and has no error path at all: every request is answered with
Except.ok, and nFrames = 0 yields the empty sequence.  (With zero workers
and a positive frame count the real collector blocks forever; blocking has
no counterpart in this terminating model and is not claimed here.) -/
theorem julia_handler_no_validation {α : Type} (render : String → Nat → Nat → α)
    (paramPath : String) (nFrames nWorkers : Nat) (schedule : List Nat) :
    (∃ out, juliaHandler render paramPath nFrames nWorkers schedule =
        Except.ok out) ∧
      juliaHandler render paramPath 0 nWorkers [] = Except.ok [] := by
  exact ⟨⟨_, rfl⟩, rfl⟩
